import Mathlib

/-!
Shallow embedding of the form-utility library `utils.js` (module `Utils`).

Modelling conventions, used uniformly below:

* A JS value that may be `undefined` is modelled as an `Option`; `none` is
  `undefined` (a missing property).  JS truthiness of an optional string is
  `strTruthy`: `undefined` and the empty string are falsy.
* JS arrays are Lean lists.  An array value is always truthy in JS, so the
  truthiness test of an optional array is `Option.isSome`.
* A JS object used as a string-keyed map is an association list; assignment
  `obj[k] = v` is `jsonSet` (overwrite in place, else append), and `obj[k]`
  is `assocGet` (first matching key).
* The global `cur_frm` is passed explicitly as an `Option` of a record of the
  parts each function reads; `none` covers the missing / invalid form.
* `console.warn` side effects are modelled, where a claim needs them, as an
  extra list of emitted warning messages in the return value.
* `site.getEnvironment()` is embedded as `site_getEnvironment` from its
  source; the functions below take the resulting environment string as a
  parameter `env` (it only feeds the debug-warning gates).
-/

/-- JS truthiness of a possibly-undefined string: `undefined` and `""` are
falsy, every other string is truthy. -/
def strTruthy : Option String → Bool
  | none => false
  | some s => s != ""

/-- JS `x || ""` for a possibly-undefined string `x` (used by the source as
`transition.action || ""` etc.): a falsy value is replaced by `""`. -/
def jsOrEmpty : Option String → String
  | none => ""
  | some s => if s == "" then "" else s

/-- JS destructuring default `{ action = "" }`: the default applies exactly
when the property is `undefined`. -/
def jsDefault (x : Option String) : String := x.getD ""

/-- JS `arr[i] || null` for an array of strings: a missing element
(`undefined`) and an empty string both collapse to `null` (`none`). -/
def jsOrNull : Option String → Option String
  | none => none
  | some s => if s == "" then none else some s

/-- Object property read `obj[k]` on an association list. -/
def assocGet (o : List (String × α)) (k : String) : Option α :=
  (o.find? (fun p => p.1 == k)).map (·.2)

/-- Object property write `obj[k] = v`: overwrite the existing binding in
place, otherwise append a new one (JS objects keep first-insertion key
order and later assignments overwrite). -/
def jsonSet (o : List (String × α)) (k : String) (v : α) : List (String × α) :=
  if o.any (fun p => p.1 == k) then
    o.map (fun p => if p.1 == k then (k, v) else p)
  else o ++ [(k, v)]

/-- JS `Array.prototype.indexOf` on a string array, with the `-1` sentinel
rendered as `none`. -/
def jsIndexOf (l : List String) (x : String) : Option Nat :=
  l.findIdx? (· == x)

/-- One entry of `frm.meta.fields`, restricted to the properties the
embedded functions read. -/
structure DocField where
  fieldname : String
  fieldtype : String
  hidden : Bool
  depends_on : Option String
  deriving Repr, DecidableEq

/-- Embeds `Utils.site.getEnvironment` (utils.js lines 2329-2353).
`developerMode` models `frappe.boot.developer_mode` (`none` when `frappe`,
`frappe.boot` or the flag is undefined); `hostname` models
`window.location.hostname` (`none` when `window` or `location` is missing,
and the empty string is falsy). -/
def site_getEnvironment (developerMode : Option Bool) (hostname : Option String) : String :=
  match developerMode with
  | some b => if b then "development" else "production"
  | none =>
    match hostname with
    | none => "production"
    | some h =>
      if h == "" then "production"
      else if h == "localhost" || h == "127.0.0.1" then "development"
      else "production"

/-- Result record of `Utils.getTabs`. -/
structure TabsResult where
  tabs : List String
  json : List (String × DocField)
  deriving Repr, DecidableEq

/-- Whether `fields[i+1]` is missing or is another `"Tab Break"`: the
empty-tab test of `getTabs` (utils.js lines 185-191). -/
def nextIsTabBreakOrEnd (fields : List DocField) (i : Nat) : Bool :=
  match fields[i + 1]? with
  | none => true
  | some nf => nf.fieldtype == "Tab Break"

/-- The guard of the `forEach` body of `Utils.getTabs` (utils.js lines
182-221): the field at index `i` is pushed onto `tabs` exactly when this
returns `true`.  The evaluation of a `depends_on` expression by the JS
`eval` (after the source trims it, strips an `eval:` prefix and rewrites
`doc.` to `frm.doc.`) is host behaviour and is abstracted by the oracle
`evalDep`: `some b` is an eval returning a value of truthiness `b`, `none`
is an eval that threw (the source then skips the tab, as it does on a falsy
result).  A falsy `depends_on` (missing or `""`) skips the eval block. -/
def tabIncluded (fields : List DocField) (excludeHidden : Bool)
    (evalDep : String → Option Bool) (i : Nat) (field : DocField) : Bool :=
  field.fieldtype == "Tab Break" &&
  !(excludeHidden && field.hidden) &&
  !(excludeHidden && nextIsTabBreakOrEnd fields i) &&
  (match field.depends_on with
   | none => true
   | some expr => if expr == "" then true else evalDep expr == some true)

/-- Core of `Utils.getTabs` (utils.js lines 168-228) on a valid form: the
`forEach` pushes `field.fieldname` / stores the field in the JSON map for
exactly the enumerated fields passing `tabIncluded`, in metadata order. -/
def getTabsFields (fields : List DocField) (excludeHidden : Bool)
    (evalDep : String → Option Bool) : TabsResult :=
  let included := fields.enum.filter (fun p => tabIncluded fields excludeHidden evalDep p.1 p.2)
  { tabs := included.map (fun p => p.2.fieldname),
    json := included.foldl (fun o p => jsonSet o p.2.fieldname p.2) [] }

/-- `Utils.getTabs` including the invalid-form guard: `frm = none` models a
missing `cur_frm`, `cur_frm.meta` or `cur_frm.meta.fields`, on which the
source returns the default right away (utils.js lines 171-177). -/
def getTabsResult (frm : Option (List DocField)) (excludeHidden : Bool)
    (evalDep : String → Option Bool) : TabsResult :=
  match frm with
  | none => { tabs := [], json := [] }
  | some fields => getTabsFields fields excludeHidden evalDep

/-- `Utils.getTabs` with its invalid-form `console.warn` modelled: the
second component lists the warnings emitted by the invalid-form guard
(utils.js lines 172-176), which fire only under `debug` in a
`"development"` environment.  The debug-only warnings of the valid path
(dependency failures, empty tab list) touch no claim and are not carried
in this wrapper. -/
def getTabsOp (frm : Option (List DocField)) (excludeHidden debug : Bool)
    (env : String) (evalDep : String → Option Bool) : TabsResult × List String :=
  match frm with
  | none =>
    ({ tabs := [], json := [] },
     if debug && env == "development" then
       ["Utils.getTabs(): Invalid Frappe form object provided."]
     else [])
  | some fields => (getTabsFields fields excludeHidden evalDep, [])

/-- Result of `Utils.getFieldsInTab` and of the region helpers on a found
target: `fields` in metadata order plus the fieldname-keyed JSON map. -/
structure FieldsResult where
  fields : List String
  json : List (String × DocField)
  deriving Repr, DecidableEq

/-- Embeds `Utils.getFieldsInTab` (utils.js lines 246-319) on a valid form.
`findIdx?` is the left-to-right `findIndex` with the `-1` sentinel as
`none`; the second `findIndex` (`index > tabStartIndex && fieldtype ===
"Tab Break"`, lines 280-283) is the first `"Tab Break"` of the suffix after
the start, and `slice(start+1, end)` is the matching take/drop. -/
def getFieldsInTab (fields : List DocField) (tab : String) : FieldsResult :=
  match fields.findIdx? (fun f => f.fieldtype == "Tab Break" && f.fieldname == tab) with
  | none => { fields := [], json := [] }
  | some tabStartIndex =>
    let rest := fields.drop (tabStartIndex + 1)
    let fieldsInSection :=
      match rest.findIdx? (fun f => f.fieldtype == "Tab Break") with
      | none => rest
      | some k => rest.take k
    { fields := fieldsInSection.map (·.fieldname),
      json := fieldsInSection.foldl (fun o f => jsonSet o f.fieldname f) [] }

/-- Return value of `getFieldsInSection` / `getFieldsInColumn`: on an
invalid form the source returns the plain empty object `{}` (utils.js lines
346 and 408), otherwise a `fields`/`json` record. -/
inductive RegionOut
  | emptyObj
  | result (fields : List String) (json : List (String × DocField))
  deriving Repr, DecidableEq

/-- Accumulator of the `forEach` of `getFieldsInSection` /
`getFieldsInColumn`: collected fieldnames, the JSON map, and the
`collectFields` / `sectionFound` flags. -/
structure RegionState where
  fields : List String
  json : List (String × DocField)
  collect : Bool
  found : Bool
  deriving Repr, DecidableEq

/-- One `forEach` iteration of `getFieldsInSection` (utils.js lines
354-367), parametric in the break fieldtype so that `getFieldsInColumn`
(lines 416-429) is the same step at `"Column Break"`.  The two `if`s run in
order on the mutated flags, exactly as in the source. -/
def regionStep (breakType : String) (target : String) (st : RegionState)
    (field : DocField) : RegionState :=
  let st :=
    if field.fieldtype == breakType then
      if field.fieldname == target then { st with collect := true, found := true }
      else if st.collect then { st with collect := false }
      else st
    else st
  if st.collect && field.fieldtype != breakType then
    { st with fields := st.fields ++ [field.fieldname],
              json := jsonSet st.json field.fieldname field }
  else st

/-- Embeds `Utils.getFieldsInSection` (utils.js lines 337-381): invalid
form returns the plain `{}` with the debug-gated warning; otherwise the
`forEach` runs and the collected `fields`/`json` record is returned (also
when the section was never found).  As in `getTabsOp`, the second
component carries the invalid-form warning. -/
def getFieldsInSectionOp (frm : Option (List DocField)) (sec : String)
    (debug : Bool) (env : String) : RegionOut × List String :=
  match frm with
  | none =>
    (RegionOut.emptyObj,
     if debug && env == "development" then
       ["Utils.getFieldsInSection(): Invalid Frappe form object provided."]
     else [])
  | some fields =>
    let st := fields.foldl (regionStep "Section Break" sec)
      { fields := [], json := [], collect := false, found := false }
    (RegionOut.result st.fields st.json, [])

/-- Embeds `Utils.getFieldsInColumn` (utils.js lines 399-443), identical to
the section variant with `"Column Break"` as the break fieldtype. -/
def getFieldsInColumnOp (frm : Option (List DocField)) (col : String)
    (debug : Bool) (env : String) : RegionOut × List String :=
  match frm with
  | none =>
    (RegionOut.emptyObj,
     if debug && env == "development" then
       ["Utils.getFieldsInColumn(): Invalid Frappe form object provided."]
     else [])
  | some fields =>
    let st := fields.foldl (regionStep "Column Break" col)
      { fields := [], json := [], collect := false, found := false }
    (RegionOut.result st.fields st.json, [])

/-- The parts of `cur_frm` read by `checkMandatory`: the fieldnames whose
`fields_dict` entry is truthy, and the truthiness of each `frm.doc[field]`
(`false` means the document value is falsy, i.e. the field is empty). -/
structure CMFrm where
  fieldsDict : List String
  docTruthy : String → Bool

/-- Return value of `checkMandatory`: the JS function returns either an
array of fieldnames or the boolean `true`. -/
inductive CheckOut
  | arr (missing : List String)
  | ok
  deriving Repr, DecidableEq

/-- Embeds `Utils.checkMandatory` (utils.js lines 460-492).  An invalid
form returns the empty array (line 469).  On a valid form the `forEach`
pushes a listed field onto `missingFields` exactly when its `fields_dict`
entry exists and `frm.doc[field]` is falsy; the mutations performed on the
way (`set_df_property`, `refresh_field`, `dirty`) do not affect the return
value and are not modelled. -/
def checkMandatory (frm : Option CMFrm) (fields : List String) : CheckOut :=
  match frm with
  | none => CheckOut.arr []
  | some frm =>
    let missingFields := fields.filter (fun f => frm.fieldsDict.contains f && !frm.docTruthy f)
    if missingFields.length > 0 then CheckOut.arr missingFields else CheckOut.ok

/-- The framework calls recorded by `changeWorkflowState`, in order. -/
inductive Mutation
  | setValue (field val : String)
  | refreshField (field : String)
  | save
  deriving Repr, DecidableEq

/-- The part of `cur_frm` read by `changeWorkflowState`. -/
structure CwsFrm where
  workflow_state : Option String
  deriving Repr, DecidableEq

/-- Embeds `Utils.changeWorkflowState` (utils.js lines 506-529), returning
the list of mutating framework calls it performs.  The guard on line 516 is
`currentStateCheck && frm.doc.workflow_state !== currentStateCheck`: the
first conjunct is JS truthiness of the optional string, the second is
strict inequality of the two optional strings. -/
def changeWorkflowState (frm : Option CwsFrm) (newState : String)
    (currentStateCheck : Option String) (autoSave : Bool) : List Mutation :=
  match frm with
  | none => []
  | some frm =>
    if strTruthy currentStateCheck && frm.workflow_state != currentStateCheck then []
    else
      [Mutation.setValue "workflow_state" newState, Mutation.refreshField "workflow_state"]
        ++ (if autoSave then [Mutation.save] else [])

/-- Output record of `hasNextTab`. -/
structure NextTabOut where
  hasNext : Bool
  nextTab : Option String
  deriving Repr, DecidableEq

/-- Embeds `Utils.hasNextTab` (utils.js lines 934-963).  `activeTab` models
`$("#form-tabs li .active").data("fieldname")`: `none` covers the absent
active link (the `!activeTabLink.length` early return); a present link
always carries its tab fieldname.  A fieldname absent from the filtered tab
list hits the `indexOf === -1` early return. -/
def hasNextTab (frm : Option (List DocField)) (evalDep : String → Option Bool)
    (activeTab : Option String) : NextTabOut :=
  let tabs := (getTabsResult frm true evalDep).tabs
  if tabs.length == 0 then { hasNext := false, nextTab := none }
  else
    match activeTab with
    | none => { hasNext := false, nextTab := none }
    | some currentTab =>
      match jsIndexOf tabs currentTab with
      | none => { hasNext := false, nextTab := none }
      | some currentTabIndex =>
        { hasNext := decide (currentTabIndex + 1 < tabs.length),
          nextTab := jsOrNull tabs[currentTabIndex + 1]? }

/-- The `saveConfig` prop of `addTabButtons`; its `direction` may be
absent. -/
structure SaveConfig where
  direction : Option String
  deriving Repr, DecidableEq

/-- Direction of a tab-navigation click, from the button's
`data-direction` attribute (the source only ever renders `"next"` and
`"previous"`). -/
inductive NavDirection
  | next
  | previous
  deriving Repr, DecidableEq

/-- What `continueNavigation` ends up doing: navigate with a prior save
(`goToTab.next.save` / `goToTab.previous.save`) or navigate directly. -/
inductive NavAction
  | saveThenNavigate (d : NavDirection)
  | navigate (d : NavDirection)
  deriving Repr, DecidableEq

/-- Embeds the `continueNavigation` closure of `Utils.addTabButtons`
(utils.js lines 1259-1295).  `saveTabs` is `props.saveTabs` (`none` when
absent, defaulted to `[]` by `props.saveTabs || []`), `saveConfig` is
`props.saveConfig`, `currentTab` is the active tab fieldname read from the
DOM (`none` when undefined; `indexOf(undefined)` is `-1` on a string
array). -/
def continueNavigation (saveTabs : Option (List String)) (saveConfig : Option SaveConfig)
    (currentTab : Option String) (direction : NavDirection) : NavAction :=
  let saveTabs := saveTabs.getD []
  let isCurrentTabInSaveTabs :=
    saveTabs.contains "*" ||
      (match currentTab with
       | some c => saveTabs.contains c
       | none => false)
  let shouldSave :=
    if isCurrentTabInSaveTabs then
      match saveConfig with
      | some cfg =>
        (cfg.direction == some "forward" && direction == NavDirection.next) ||
        (cfg.direction == some "backward" && direction == NavDirection.previous) ||
        (cfg.direction == some "bidirectional")
      | none => true
    else false
  if shouldSave then NavAction.saveThenNavigate direction else NavAction.navigate direction

/-- One row of a workflow transition table, with every property possibly
undefined.  `allowed` is kept in its comma-separated string form, the shape
`formatAllowedRoles` normalises; the array and object shapes of that helper
are not exercised by any claim and both callers pass `allowed` through the
same helper unchanged. -/
structure Transition where
  state : Option String
  action : Option String
  next_state : Option String
  allowed : Option String
  condition : Option String
  deriving Repr, DecidableEq

/-- A workflow object: only its `transitions` array is read. -/
structure Workflow where
  transitions : Option (List Transition)
  deriving Repr, DecidableEq

/-- The parts of `cur_frm.doc` read by the workflow helpers. -/
structure WfDoc where
  doctype : Option String
  workflow_state : Option String
  deriving Repr, DecidableEq

/-- The parts of `cur_frm` read by the workflow helpers; a missing
`cur_frm` is `none` at the call sites. -/
structure WfFrm where
  doc : Option WfDoc
  workflow : Option Workflow
  deriving Repr, DecidableEq

/-- A formatted transition record as returned by the workflow helpers.
Field order in the source objects differs between the helpers but the
records carry the same five properties. -/
structure FmtTransition where
  action : String
  next_state : String
  allowed_roles : List String
  condition : String
  state : String
  deriving Repr, DecidableEq

/-- Embeds the private `formatAllowedRoles` (utils.js lines 71-102) on the
comma-separated string shape: a falsy `allowed` (missing or `""`) gives
`[]`, a string is split on `","`, trimmed and filtered by truthiness. -/
def formatAllowedRoles : Option String → List String
  | none => []
  | some s =>
    if s == "" then []
    else ((s.splitOn ",").map String.trim).filter (fun r => r != "")

/-- `frappe.workflow.workflows` as an association from doctype to workflow
object; `none` models a missing `frappe.workflow` or `.workflows`. -/
abbrev FrappeWorkflows : Type := Option (List (String × Workflow))

/-- The transition-source selection of the deprecated helpers (utils.js
lines 1944-1956, repeated at 2018-2030 and 2227-2236): prefer
`cur_frm.workflow.transitions` when `cur_frm.workflow` and its
`transitions` are truthy, else fall back to
`frappe.workflow.workflows[doctype].transitions || []` when the chain up to
`workflows[doctype]` is truthy, else keep the initial `[]`. -/
def selectTransitionsLegacy (frm : WfFrm) (fw : FrappeWorkflows)
    (doctype : String) : List Transition :=
  let fallback : List Transition :=
    match fw with
    | none => []
    | some m =>
      match assocGet m doctype with
      | none => []
      | some w2 =>
        match w2.transitions with
        | some ts => ts
        | none => []
  match frm.workflow with
  | some w =>
    match w.transitions with
    | some ts => ts
    | none => fallback
  | none => fallback

/-- The transition-source selection of `workflow.getTransitions` /
`workflow.getAllTransitions` (utils.js lines 2110-2113):
`cur_frm.workflow?.transitions || frappe.workflow?.workflows?.[doctype]?.transitions || []`
(an array, even empty, is truthy). -/
def selectTransitionsChained (frm : WfFrm) (fw : FrappeWorkflows)
    (doctype : String) : List Transition :=
  match frm.workflow.bind Workflow.transitions with
  | some ts => ts
  | none =>
    match (fw.bind (fun m => assocGet m doctype)).bind Workflow.transitions with
    | some ts => ts
    | none => []

/-- Formatting of one transition by the deprecated `getWorkflowTransitions`
(utils.js lines 1969-1977): each string property is defaulted by
`x || ""`. -/
def fmtTransitionLegacy (t : Transition) : FmtTransition :=
  { action := jsOrEmpty t.action
    next_state := jsOrEmpty t.next_state
    allowed_roles := formatAllowedRoles t.allowed
    condition := jsOrEmpty t.condition
    state := jsOrEmpty t.state }

/-- Formatting of one transition by `workflow.getTransitions` (utils.js
lines 2116-2130): each string property is defaulted by a destructuring
default, which applies exactly when the property is undefined. -/
def fmtTransitionChained (t : Transition) : FmtTransition :=
  { action := jsDefault t.action
    next_state := jsDefault t.next_state
    allowed_roles := formatAllowedRoles t.allowed
    condition := jsDefault t.condition
    state := jsDefault t.state }

/-- Embeds the deprecated `Utils.getWorkflowTransitions` (utils.js lines
1923-1982): guard on a truthy `cur_frm.doc.doctype` and
`cur_frm.doc.workflow_state`, select the transition table, return `[]`
when it is empty, otherwise filter on `t.state === workflow_state` and
format each row. -/
def getWorkflowTransitions (frm : Option WfFrm) (fw : FrappeWorkflows) : List FmtTransition :=
  match frm with
  | none => []
  | some frm =>
    match frm.doc with
    | none => []
    | some doc =>
      match doc.doctype with
      | none => []
      | some doctype =>
        if doctype == "" then []
        else
          match doc.workflow_state with
          | none => []
          | some ws =>
            if ws == "" then []
            else
              let transitions := selectTransitionsLegacy frm fw doctype
              if transitions.length == 0 then []
              else
                (transitions.filter (fun t => t.state == some ws)).map fmtTransitionLegacy

/-- Embeds `Utils.workflow.getTransitions` (utils.js lines 2099-2135):
guard on `cur_frm?.doc?.doctype` and `workflow_state`, take the chained
transition source, filter on `state === workflow_state` and format with
destructuring defaults. -/
def workflow_getTransitions (frm : Option WfFrm) (fw : FrappeWorkflows) : List FmtTransition :=
  match frm with
  | none => []
  | some frm =>
    match frm.doc with
    | none => []
    | some doc =>
      match doc.doctype with
      | none => []
      | some doctype =>
        if doctype == "" then []
        else
          match doc.workflow_state with
          | none => []
          | some ws =>
            if ws == "" then []
            else
              (selectTransitionsChained frm fw doctype |>.filter
                  (fun t => t.state == some ws)).map fmtTransitionChained

/-- The `updateField` option of `Utils.action.confirm`; `value = none`
models an undefined value (the source checks `value !== undefined`). -/
structure UpdateField where
  field : String
  value : Option String
  deriving Repr, DecidableEq

/-- The user's response to the `frappe.confirm` dialog. -/
inductive ConfirmChoice
  | confirmed
  | cancelled
  deriving Repr, DecidableEq

/-- Outcome of the asynchronous `frappe.db.set_value` write. -/
inductive DbWrite
  | success
  | failure
  deriving Repr, DecidableEq

/-- Embeds the `before_workflow_action` handler installed by
`Utils.action.confirm` (utils.js lines 1441-1510) as an explicit function
of the host events: the selected workflow action, the dialog choice and
the write outcome.  The internal promise is resolved on confirmation (after
a successful optional `frappe.db.set_value`) and rejected on cancellation
or a failed write; `await promise.catch(() => { throw ... })` turns a
rejection into the thrown error, so `Except.error` is the handler throwing
(which aborts the caller's workflow action) and `Except.ok` is a normal
return. -/
def actionConfirmHandler (interceptAction : String) (updateField : Option UpdateField)
    (selected : Option String) (choice : ConfirmChoice) (write : DbWrite) :
    Except String Unit :=
  if selected != some interceptAction then Except.ok ()
  else
    match choice with
    | ConfirmChoice.cancelled => Except.error "Workflow action cancelled."
    | ConfirmChoice.confirmed =>
      match updateField with
      | none => Except.ok ()
      | some uf =>
        if uf.field != "" && uf.value.isSome then
          match write with
          | DbWrite.success => Except.ok ()
          | DbWrite.failure => Except.error "Workflow action cancelled."
        else Except.ok ()

/-- JS object-key coercion for `transitionMap[transition.state]`: an
undefined state is the literal key `"undefined"`. -/
def keyOfState (s : Option String) : String := s.getD "undefined"

/-- The `transitionMap` built by `workflow.getFutureTransitions` (utils.js
lines 2245-2251): group the table by (coerced) `state` key, keeping the
per-state order of the table. -/
def buildTransitionMap (ts : List Transition) : List (String × List Transition) :=
  ts.foldl
    (fun m t =>
      let k := keyOfState t.state
      if m.any (fun p => p.1 == k) then
        m.map (fun p => if p.1 == k then (p.1, p.2 ++ [t]) else p)
      else m ++ [(k, [t])])
    []

/-- JS strict equality between a stored (formatted) string and a raw,
possibly undefined, string: `s === undefined` is `false`. -/
def jsStrEq (s : String) (o : Option String) : Bool :=
  match o with
  | none => false
  | some x => s == x

/-- The duplicate check of `collectTransitions` (utils.js lines 2258-2263):
some already-collected record has `t.action === transition.action &&
t.state === transition.state`, comparing the stored formatted strings with
the raw properties. -/
def seenTransition (acc : List FmtTransition) (t : Transition) : Bool :=
  acc.any (fun f => jsStrEq f.action t.action && jsStrEq f.state t.state)

/-- Formatting of one collected row by `getFutureTransitions` (utils.js
lines 2265-2273). -/
def fmtTransitionFuture (t : Transition) : FmtTransition :=
  { action := jsOrEmpty t.action
    next_state := jsOrEmpty t.next_state
    allowed_roles := formatAllowedRoles t.allowed
    condition := jsOrEmpty t.condition
    state := jsOrEmpty t.state }

/-!
The recursive `collectTransitions` of `workflow.getFutureTransitions`
(utils.js lines 2253-2277), with the mutable `futureTransitions` array as
the accumulator `acc` and an explicit `fuel` bound on the recursion depth:
`none` means the recursion did not finish within `fuel` nested calls (the
source has no bound of its own; in a browser an unbounded recursion dies as
a stack overflow swallowed by the surrounding `catch`).  `collectGo` is one
call of `collectTransitions state`; `collectList` is its `forEach` over the
map entry. -/
mutual

/-- One call of the recursive `collectTransitions` (see the comment just
above the `mutual` block). -/
def collectGo (tmap : List (String × List Transition)) (fuel : Nat)
    (state : String) (acc : List FmtTransition) : Option (List FmtTransition) :=
  match fuel with
  | 0 => none
  | f + 1 =>
    match assocGet tmap state with
    | none => some acc
    | some ts => collectList tmap f ts acc
termination_by (fuel, 0)

/-- The `forEach` of `collectTransitions` over one transition-map entry:
skip a row some collected record already matches, otherwise push its
formatted record and recurse into its `next_state`. -/
def collectList (tmap : List (String × List Transition)) (fuel : Nat)
    (ts : List Transition) (acc : List FmtTransition) : Option (List FmtTransition) :=
  match ts with
  | [] => some acc
  | t :: rest =>
    if seenTransition acc t then collectList tmap fuel rest acc
    else
      match collectGo tmap fuel (keyOfState t.next_state) (acc ++ [fmtTransitionFuture t]) with
      | none => none
      | some acc2 => collectList tmap fuel rest acc2
termination_by (fuel, ts.length + 1)

end

/-- Embeds `Utils.workflow.getFutureTransitions` (utils.js lines
2208-2286): guards on doctype and on `state || workflow_state`, legacy
transition-source selection, empty-table early return, then the fueled
recursive collection starting from the current state.  `none` propagates
an out-of-fuel recursion. -/
def getFutureTransitions (frm : Option WfFrm) (fw : FrappeWorkflows)
    (stateProp : Option String) (fuel : Nat) : Option (List FmtTransition) :=
  match frm with
  | none => some []
  | some frm =>
    match frm.doc with
    | none => some []
    | some doc =>
      match doc.doctype with
      | none => some []
      | some doctype =>
        if doctype == "" then some []
        else
          let currentState? : Option String :=
            match stateProp with
            | some s => if s == "" then doc.workflow_state else some s
            | none => doc.workflow_state
          match currentState? with
          | none => some []
          | some currentState =>
            if currentState == "" then some []
            else
              let transitions := selectTransitionsLegacy frm fw doctype
              if transitions.length == 0 then some []
              else collectGo (buildTransitionMap transitions) fuel currentState []

/-! Spec-side predicates used to state the claims about tab partitioning. -/

/-- The field at index `k` is a `"Tab Break"` whose fieldname is `tab`. -/
def isTabAt (fields : List DocField) (tab : String) (k : Nat) : Bool :=
  match fields[k]? with
  | some f => f.fieldtype == "Tab Break" && f.fieldname == tab
  | none => false

/-- The field at index `k` is a `"Tab Break"`. -/
def isTabBreakAt (fields : List DocField) (k : Nat) : Bool :=
  match fields[k]? with
  | some f => f.fieldtype == "Tab Break"
  | none => false

lemma isTabAt_true {fields : List DocField} {tab : String} {k : Nat}
    (h : isTabAt fields tab k = true) :
    ∃ hk : k < fields.length,
      (fields.get ⟨k, hk⟩).fieldtype = "Tab Break" ∧ (fields.get ⟨k, hk⟩).fieldname = tab := by
  unfold isTabAt at h
  cases hfk : fields[k]? with
  | none => rw [hfk] at h; exact absurd h (by simp)
  | some f =>
    rw [hfk] at h
    have hk : k < fields.length := by
      by_contra hlt
      rw [List.getElem?_eq_none (by omega)] at hfk
      exact absurd hfk (by simp)
    have : fields[k] = f := by
      have := List.getElem?_eq_getElem hk
      rw [hfk] at this
      exact (Option.some.injEq _ _ ▸ this).symm
    refine ⟨hk, ?_, ?_⟩ <;> simp [List.get_eq_getElem, this] <;>
      simp [Bool.and_eq_true, beq_iff_eq] at h <;> tauto

lemma isTabAt_false {fields : List DocField} {tab : String} {k : Nat}
    (h : isTabAt fields tab k = false) (hk : k < fields.length) :
    ¬((fields.get ⟨k, hk⟩).fieldtype = "Tab Break" ∧ (fields.get ⟨k, hk⟩).fieldname = tab) := by
  unfold isTabAt at h
  rw [List.getElem?_eq_getElem hk] at h
  simp [Bool.and_eq_true, beq_iff_eq] at h
  simp [List.get_eq_getElem]
  exact fun h1 => h h1


lemma isTabBreakAt_true {fields : List DocField} {k : Nat}
    (h : isTabBreakAt fields k = true) :
    ∃ hk : k < fields.length, (fields.get ⟨k, hk⟩).fieldtype = "Tab Break" := by
  unfold isTabBreakAt at h
  cases hfk : fields[k]? with
  | none => rw [hfk] at h; exact absurd h (by simp)
  | some f =>
    rw [hfk] at h
    have hk : k < fields.length := by
      by_contra hlt
      rw [List.getElem?_eq_none (by omega)] at hfk
      exact absurd hfk (by simp)
    have hval : fields[k] = f := by
      have := List.getElem?_eq_getElem hk
      rw [hfk] at this
      exact (Option.some.injEq _ _ ▸ this).symm
    exact ⟨hk, by simpa [List.get_eq_getElem, hval, beq_iff_eq] using h⟩

lemma isTabBreakAt_false {fields : List DocField} {k : Nat}
    (h : isTabBreakAt fields k = false) (hk : k < fields.length) :
    ¬(fields.get ⟨k, hk⟩).fieldtype = "Tab Break" := by
  unfold isTabBreakAt at h
  rw [List.getElem?_eq_getElem hk] at h
  simpa [List.get_eq_getElem, beq_iff_eq] using h

/-- C1: for a metadata array whose first `"Tab Break"` named `tab` sits at
index `i`, `getFieldsInTab` returns exactly the fields strictly between
index `i` and the next `"Tab Break"` at index `j` (the whole tail when no
later `"Tab Break"` exists), in metadata order. -/
theorem getFieldsInTab_returns_slice (fields : List DocField) (tab : String) (i : Nat)
    (hi : isTabAt fields tab i = true)
    (hFirst : ∀ k < i, isTabAt fields tab k = false) :
    (∀ j, i < j → isTabBreakAt fields j = true →
      (∀ k < j, i < k → isTabBreakAt fields k = false) →
      (getFieldsInTab fields tab).fields
        = ((fields.take j).drop (i + 1)).map DocField.fieldname)
    ∧ ((∀ k < fields.length, i < k → isTabBreakAt fields k = false) →
      (getFieldsInTab fields tab).fields
        = (fields.drop (i + 1)).map DocField.fieldname) := by
  obtain ⟨hilen, hity, hinm⟩ := isTabAt_true hi
  have hStart :
      fields.findIdx? (fun f => f.fieldtype == "Tab Break" && f.fieldname == tab) = some i := by
    rw [List.findIdx?_eq_some_iff_getElem]
    refine ⟨hilen, ?_, ?_⟩
    · simp only [List.get_eq_getElem] at hity hinm
      simp [hity, hinm]
    · intro k hki
      have hk : k < fields.length := Nat.lt_trans hki hilen
      have := isTabAt_false (hFirst k hki) hk
      simp only [List.get_eq_getElem] at this
      simp only [Bool.not_eq_true, Bool.and_eq_false_iff]
      rcases Decidable.em (fields[k].fieldtype = "Tab Break") with hty | hty
      · right; simp [beq_iff_eq]; intro hnm; exact this ⟨hty, hnm⟩
      · left; simp [beq_iff_eq]; exact hty
  constructor
  · intro j hij hj hbetween
    obtain ⟨hjlen, hjty⟩ := isTabBreakAt_true hj
    have hi1j : i + 1 ≤ j := hij
    have hEnd :
        (fields.drop (i + 1)).findIdx? (fun f => f.fieldtype == "Tab Break")
          = some (j - (i + 1)) := by
      rw [List.findIdx?_eq_some_iff_getElem]
      have hlen : j - (i + 1) < (fields.drop (i + 1)).length := by
        rw [List.length_drop]; omega
      refine ⟨hlen, ?_, ?_⟩
      · have : (fields.drop (i + 1))[j - (i + 1)] = fields[(i + 1) + (j - (i + 1))] :=
          List.getElem_drop fields
        rw [this]
        have hidx : (i + 1) + (j - (i + 1)) = j := by omega
        simp only [List.get_eq_getElem] at hjty
        simp only [hidx]
        simp [hjty]
      · intro m hm
        have hmlen : m < (fields.drop (i + 1)).length := Nat.lt_trans hm hlen
        have hklen : (i + 1) + m < fields.length := by
          rw [List.length_drop] at hmlen; omega
        have hval : (fields.drop (i + 1))[m] = fields[(i + 1) + m] := List.getElem_drop fields
        have hkj : (i + 1) + m < j := by omega
        have hk : i < (i + 1) + m := by omega
        have := isTabBreakAt_false (hbetween ((i + 1) + m) hkj hk) hklen
        simp only [List.get_eq_getElem] at this
        simp only [hval, Bool.not_eq_true]
        simp [beq_iff_eq]
        exact this
    simp only [getFieldsInTab, hStart, hEnd]
    rw [List.drop_take]
  · intro hAll
    have hEnd :
        (fields.drop (i + 1)).findIdx? (fun f => f.fieldtype == "Tab Break") = none := by
      rw [List.findIdx?_eq_none_iff]
      intro x hx
      obtain ⟨m, hmlen, hmval⟩ := List.mem_iff_getElem.mp hx
      have hklen : (i + 1) + m < fields.length := by
        rw [List.length_drop] at hmlen; omega
      have hval : (fields.drop (i + 1))[m] = fields[(i + 1) + m] := List.getElem_drop fields
      have hk : i < (i + 1) + m := by omega
      have := isTabBreakAt_false (hAll ((i + 1) + m) hklen hk) hklen
      simp only [List.get_eq_getElem] at this
      rw [← hmval, hval]
      simp [beq_iff_eq]
      exact this
    simp only [getFieldsInTab, hStart, hEnd]

/-- A plain data field with the given name. -/
def mkDataField (n : String) : DocField :=
  { fieldname := n, fieldtype := "Data", hidden := false, depends_on := none }

/-- A visible tab break with the given name. -/
def mkTabBreak (n : String) : DocField :=
  { fieldname := n, fieldtype := "Tab Break", hidden := false, depends_on := none }

/-- The metadata array of the spec example for C1: tab breaks at indices 2
and 7, data fields elsewhere. -/
def c1ExampleFields : List DocField :=
  [mkDataField "f0", mkDataField "f1", mkTabBreak "tab_one",
   mkDataField "f3", mkDataField "f4", mkDataField "f5", mkDataField "f6",
   mkTabBreak "tab_two", mkDataField "f8"]

/-- Witness for C1 at the spec example: with tab breaks at indices 2 and 7,
`getFieldsInTab` for the first tab returns exactly the fields at indices 3
through 6. -/
theorem getFieldsInTab_returns_slice_witness :
    (getFieldsInTab c1ExampleFields "tab_one").fields = ["f3", "f4", "f5", "f6"] := by
  have h := (getFieldsInTab_returns_slice c1ExampleFields "tab_one" 2 (by decide)
      (by decide)).1 7 (by decide) (by decide) (by decide)
  rw [h]
  rfl

/-- C3: when the active tab is the last element of the (pairwise distinct)
tab list produced by `getTabs` with hidden tabs excluded, `hasNextTab`
returns `hasNext = false` and `nextTab = null`. -/
theorem hasNextTab_last_tab (frm : Option (List DocField)) (evalDep : String → Option Bool)
    (t : String)
    (hne : (getTabsResult frm true evalDep).tabs ≠ [])
    (hnd : (getTabsResult frm true evalDep).tabs.Nodup)
    (hlast : t = (getTabsResult frm true evalDep).tabs.getLast hne) :
    hasNextTab frm evalDep (some t) = { hasNext := false, nextTab := none } := by
  set l := (getTabsResult frm true evalDep).tabs with hl
  have hpos : 0 < l.length := List.length_pos.mpr hne
  have hl1 : l.length - 1 < l.length := by omega
  have hgetlast : l.getLast hne = l.get ⟨l.length - 1, hl1⟩ := List.getLast_eq_get l hne
  have hidx : jsIndexOf l t = some (l.length - 1) := by
    unfold jsIndexOf
    rw [List.findIdx?_eq_some_iff_getElem]
    refine ⟨hl1, ?_, ?_⟩
    · simp only [beq_iff_eq]
      have := (hlast.trans hgetlast).symm
      simpa [List.get_eq_getElem] using this
    · intro jj hjj
      simp only [beq_iff_eq, Bool.not_eq_true]
      have hjl : jj < l.length := by omega
      have hne2 : ¬ l.get ⟨jj, hjl⟩ = t := by
        intro heq
        have h2 : l.get ⟨jj, hjl⟩ = l.get ⟨l.length - 1, hl1⟩ :=
          heq.trans (hlast.trans hgetlast)
        simp only [List.get_eq_getElem] at h2
        rw [hnd.getElem_inj_iff] at h2
        omega
      simp only [List.get_eq_getElem] at hne2
      simpa using hne2
  have hlen0 : (l.length == 0) = false := by
    simp only [beq_eq_false_iff_ne]; omega
  have hsucc : l.length - 1 + 1 = l.length := by omega
  have hnone : l[l.length - 1 + 1]? = none := by
    rw [hsucc]
    exact List.getElem?_eq_none (Nat.le_refl _)
  have hlt : decide (l.length - 1 + 1 < l.length) = false := by
    simp only [hsucc, decide_eq_false_iff_not]; omega
  simp only [hasNextTab, ← hl, hlen0, hidx, hnone, hlt, Bool.false_eq_true, if_false]
  rfl

/-- A two-tab metadata array used as concrete input for the C3 witness. -/
def c3ExampleFields : List DocField :=
  [mkTabBreak "t1", mkDataField "a", mkTabBreak "t2", mkDataField "b"]

/-- Witness for C3: on a concrete two-tab form whose active tab is the
last filtered tab, `hasNextTab` reports no next tab. -/
theorem hasNextTab_last_tab_witness :
    hasNextTab (some c3ExampleFields) (fun _ => none) (some "t2")
      = { hasNext := false, nextTab := none } := by
  have hne : (getTabsResult (some c3ExampleFields) true (fun _ => none)).tabs ≠ [] := by decide
  have hsome : (getTabsResult (some c3ExampleFields) true (fun _ => none)).tabs.getLast? = some "t2" := by
    decide
  exact hasNextTab_last_tab (some c3ExampleFields) (fun _ => none) "t2" hne (by decide)
    (((List.getLast_eq_iff_getLast?_eq_some hne).mpr hsome).symm)

/-- A valid form whose `fields_dict` is empty and whose document values are
all falsy: concrete input for the C2 counterexample. -/
def c2Frm : CMFrm := { fieldsDict := [], docTruthy := fun _ => false }

/-- C2 counterexample: on a valid form, `checkMandatory` for the list
`["x"]` returns `true` although the listed field `"x"` is empty on the
document (`frm.doc.x` is falsy) - the field just has no `fields_dict`
entry, so the source never examines it.  This refutes `returns true iff no
listed field is empty on the document`. -/
theorem checkMandatory_counterexample :
    checkMandatory (some c2Frm) ["x"] = CheckOut.ok ∧ c2Frm.docTruthy "x" = false :=
  ⟨rfl, rfl⟩

/-- C2 amended: on a valid form, `checkMandatory` returns `true` iff every
listed field that exists in the form's `fields_dict` is non-empty on the
document; otherwise it returns the array of the listed existing fields
that are empty, in listed order. -/
theorem checkMandatory_amended (frm : CMFrm) (fields : List String) :
    (checkMandatory (some frm) fields = CheckOut.ok ↔
      ∀ f ∈ fields, f ∈ frm.fieldsDict → frm.docTruthy f = true)
    ∧ (checkMandatory (some frm) fields = CheckOut.ok ∨
       checkMandatory (some frm) fields
         = CheckOut.arr (fields.filter (fun f => frm.fieldsDict.contains f && !frm.docTruthy f))) := by
  have hcont : ∀ f, frm.fieldsDict.contains f = true ↔ f ∈ frm.fieldsDict := by
    intro f; exact List.elem_iff
  unfold checkMandatory
  simp only
  by_cases h :
      (fields.filter (fun f => frm.fieldsDict.contains f && !frm.docTruthy f)).length > 0
  · rw [if_pos h]
    constructor
    · constructor
      · intro habs; exact absurd habs (by simp)
      · intro hall
        exfalso
        have hne : fields.filter (fun f => frm.fieldsDict.contains f && !frm.docTruthy f) ≠ [] := by
          intro hnil; rw [hnil] at h; simp at h
        obtain ⟨f, hf⟩ := List.exists_mem_of_ne_nil _ hne
        obtain ⟨hmem, hpred⟩ := List.mem_filter.mp hf
        simp only [Bool.and_eq_true, Bool.not_eq_true'] at hpred
        obtain ⟨hdict, hfalsy⟩ := hpred
        have := hall f hmem ((hcont f).mp hdict)
        rw [this] at hfalsy
        exact absurd hfalsy (by simp)
    · right; rfl
  · rw [if_neg h]
    have hnil : fields.filter (fun f => frm.fieldsDict.contains f && !frm.docTruthy f) = [] := by
      cases hh : fields.filter (fun f => frm.fieldsDict.contains f && !frm.docTruthy f) with
      | nil => rfl
      | cons a l => rw [hh] at h; simp at h
    constructor
    · constructor
      · intro _ f hmem hdict
        have hnp := List.filter_eq_nil_iff.mp hnil f hmem
        simp only [Bool.and_eq_true, Bool.not_eq_true', not_and] at hnp
        rcases Bool.eq_false_or_eq_true (frm.docTruthy f) with htrue | hfalse
        · exact htrue
        · exact absurd hfalse (hnp ((hcont f).mpr hdict))
      · intro _; rfl
    · left; rfl

lemma regionStep_no_match {breakType target : String} {st : RegionState}
    (hcol : st.collect = false) (field : DocField)
    (hno : ¬(field.fieldtype = breakType ∧ field.fieldname = target)) :
    regionStep breakType target st field = st := by
  unfold regionStep
  by_cases hty : field.fieldtype == breakType
  · have htyeq : field.fieldtype = breakType := by simpa [beq_iff_eq] using hty
    have hnm : (field.fieldname == target) = false := by
      rcases Bool.eq_false_or_eq_true (field.fieldname == target) with h1 | h1
      · exact absurd ⟨htyeq, by simpa [beq_iff_eq] using h1⟩ hno
      · exact h1
    simp [hty, hnm, hcol]
  · have hty2 : (field.fieldtype == breakType) = false := by
      simpa using hty
    simp [hty2, hcol]

lemma region_foldl_no_match {breakType target : String} (fields : List DocField)
    (hnone : ∀ f ∈ fields, ¬(f.fieldtype = breakType ∧ f.fieldname = target)) :
    ∀ st : RegionState, st.collect = false →
      fields.foldl (regionStep breakType target) st = st := by
  induction fields with
  | nil => intro st _; rfl
  | cons f rest ih =>
    intro st hcol
    have hstep : regionStep breakType target st f =
        st := regionStep_no_match hcol f (hnone f (List.mem_cons_self f rest))
    simp only [List.foldl_cons, hstep]
    exact ih (fun g hg => hnone g (List.mem_cons_of_mem f hg)) st hcol

/-- C4 counterexample: on a missing form object, `getFieldsInSection`
returns the plain empty object `{}` (utils.js line 346), which is not the
documented `fields: [], json: {}` default, and with `debug` unset no
console warning is emitted at all. -/
theorem getFieldsInSection_invalid_counterexample :
    getFieldsInSectionOp none "some_section" true "development"
        = (RegionOut.emptyObj,
           ["Utils.getFieldsInSection(): Invalid Frappe form object provided."])
    ∧ RegionOut.emptyObj ≠ RegionOut.result [] []
    ∧ (getFieldsInSectionOp none "some_section" false "development").2 = [] :=
  ⟨rfl, by decide, rfl⟩

/-- C4 amended: on a missing or invalid form object every operation
returns early with its default empty value - `getTabs` with
`tabs: [], json: {}` but `getFieldsInSection` and `getFieldsInColumn` with
the plain empty object `{}` - and the console warning is emitted exactly
when `debug` is set in a development environment; when the form is valid
but the target section or column is missing, the latter two return
`fields: [], json: {}`. -/
theorem invalid_form_defaults (excludeHidden debug : Bool) (env : String)
    (evalDep : String → Option Bool) (sec col : String) (fields : List DocField) :
    (getTabsOp none excludeHidden debug env evalDep).1 = { tabs := [], json := [] }
    ∧ (getFieldsInSectionOp none sec debug env).1 = RegionOut.emptyObj
    ∧ (getFieldsInColumnOp none col debug env).1 = RegionOut.emptyObj
    ∧ ((getTabsOp none excludeHidden debug env evalDep).2 ≠ []
        ↔ (debug = true ∧ env = "development"))
    ∧ ((getFieldsInSectionOp none sec debug env).2 ≠ []
        ↔ (debug = true ∧ env = "development"))
    ∧ ((getFieldsInColumnOp none col debug env).2 ≠ []
        ↔ (debug = true ∧ env = "development"))
    ∧ ((∀ f ∈ fields, ¬(f.fieldtype = "Section Break" ∧ f.fieldname = sec)) →
        (getFieldsInSectionOp (some fields) sec debug env).1 = RegionOut.result [] [])
    ∧ ((∀ f ∈ fields, ¬(f.fieldtype = "Column Break" ∧ f.fieldname = col)) →
        (getFieldsInColumnOp (some fields) col debug env).1 = RegionOut.result [] []) := by
  refine ⟨rfl, rfl, rfl, ?_, ?_, ?_, ?_, ?_⟩
  · simp only [getTabsOp]
    by_cases hd : debug <;> by_cases he : env == "development" <;>
      simp_all [beq_iff_eq]
  · simp only [getFieldsInSectionOp]
    by_cases hd : debug <;> by_cases he : env == "development" <;>
      simp_all [beq_iff_eq]
  · simp only [getFieldsInColumnOp]
    by_cases hd : debug <;> by_cases he : env == "development" <;>
      simp_all [beq_iff_eq]
  · intro hnone
    simp only [getFieldsInSectionOp]
    rw [region_foldl_no_match fields hnone _ rfl]
  · intro hnone
    simp only [getFieldsInColumnOp]
    rw [region_foldl_no_match fields hnone _ rfl]

/-- Witness for C4 at concrete inputs: a missing form with debugging on in
development warns and yields the defaults, and a valid one-field form
without the requested section yields the empty `fields`/`json` record. -/
theorem invalid_form_defaults_witness :
    (getFieldsInSectionOp none "s1" true "development").1 = RegionOut.emptyObj
    ∧ (getFieldsInSectionOp (some [mkDataField "a"]) "s1" true "development").1
        = RegionOut.result [] [] := by
  have h := invalid_form_defaults true true "development" (fun _ => none) "s1" "c1"
      [mkDataField "a"]
  exact ⟨h.2.1, h.2.2.2.2.2.2.1 (by decide)⟩

/-- The claim's description of when `addTabButtons` navigation saves: the
current tab is listed in `saveTabs` (or `saveTabs` contains `"*"`), and the
configured save direction permits it - `forward` only on Next, `backward`
only on Previous, `bidirectional` or an absent `saveConfig` on both. -/
def saveExpected (saveTabs : List String) (saveConfig : Option SaveConfig)
    (currentTab : Option String) (d : NavDirection) : Prop :=
  ("*" ∈ saveTabs ∨ ∃ c, currentTab = some c ∧ c ∈ saveTabs) ∧
  (match saveConfig with
   | none => True
   | some cfg =>
     (cfg.direction = some "forward" ∧ d = NavDirection.next) ∨
     (cfg.direction = some "backward" ∧ d = NavDirection.previous) ∨
     cfg.direction = some "bidirectional")

/-- C5: tab navigation saves before navigating exactly when `saveExpected`
holds, and in every case it navigates in the clicked direction. -/
theorem continueNavigation_save_iff (saveTabs : Option (List String))
    (saveConfig : Option SaveConfig) (currentTab : Option String) (d : NavDirection) :
    (continueNavigation saveTabs saveConfig currentTab d = NavAction.saveThenNavigate d ↔
      saveExpected (saveTabs.getD []) saveConfig currentTab d)
    ∧ (continueNavigation saveTabs saveConfig currentTab d = NavAction.saveThenNavigate d ∨
       continueNavigation saveTabs saveConfig currentTab d = NavAction.navigate d) := by
  unfold continueNavigation saveExpected
  cases saveConfig with
  | none =>
    cases currentTab with
    | none =>
      by_cases hs : (saveTabs.getD []).contains "*" <;>
        simp_all [List.elem_iff]
    | some c =>
      by_cases hs : (saveTabs.getD []).contains "*" <;>
        by_cases hc : (saveTabs.getD []).contains c <;>
        simp_all [List.elem_iff]
  | some cfg =>
    cases d <;>
      by_cases hs : (saveTabs.getD []).contains "*" <;>
      rcases currentTab with _ | c <;>
      simp_all [List.elem_iff] <;>
      by_cases hf : cfg.direction = some "forward" <;>
      by_cases hb : cfg.direction = some "backward" <;>
      by_cases h2 : cfg.direction = some "bidirectional" <;>
      simp_all

lemma jsOrEmpty_eq_jsDefault (x : Option String) : jsOrEmpty x = jsDefault x := by
  cases x with
  | none => rfl
  | some s =>
    unfold jsOrEmpty jsDefault
    by_cases h : s == ""
    · simp_all [beq_iff_eq]
    · simp_all

lemma fmtTransitionLegacy_eq_chained : fmtTransitionLegacy = fmtTransitionChained := by
  funext t
  unfold fmtTransitionLegacy fmtTransitionChained
  simp [jsOrEmpty_eq_jsDefault]

lemma selectTransitions_legacy_eq_chained (frm : WfFrm) (fw : FrappeWorkflows)
    (doctype : String) :
    selectTransitionsLegacy frm fw doctype = selectTransitionsChained frm fw doctype := by
  unfold selectTransitionsLegacy selectTransitionsChained
  cases hw : frm.workflow with
  | none =>
    simp only [Option.bind]
    cases fw with
    | none => rfl
    | some m =>
      cases hm : assocGet m doctype with
      | none => simp [Option.bind, hm]
      | some w2 => cases w2.transitions <;> simp [Option.bind, hm]
  | some w =>
    cases ht : w.transitions with
    | none =>
      simp only [Option.bind, ht]
      cases fw with
      | none => rfl
      | some m =>
        cases hm : assocGet m doctype with
        | none => simp [Option.bind, hm]
        | some w2 => cases w2.transitions <;> simp [Option.bind, hm]
    | some ts => simp [Option.bind, ht]


/-- C6: the deprecated `getWorkflowTransitions` and the replacement
`workflow.getTransitions` compute the same result on every form and
workflow configuration: the same guards, the same transition-table
selection, the same filter on the current `workflow_state`, and the same
formatted record for each row. -/
theorem getWorkflowTransitions_eq_workflow_getTransitions
    (frm : Option WfFrm) (fw : FrappeWorkflows) :
    getWorkflowTransitions frm fw = workflow_getTransitions frm fw := by
  unfold getWorkflowTransitions workflow_getTransitions
  cases frm with
  | none => rfl
  | some f =>
    simp only
    cases f.doc with
    | none => rfl
    | some doc =>
      simp only
      cases doc.doctype with
      | none => rfl
      | some doctype =>
        simp only
        by_cases hdt : doctype == ""
        · simp [hdt]
        · simp only [hdt, Bool.false_eq_true, if_false]
          cases doc.workflow_state with
          | none => rfl
          | some ws =>
            simp only
            by_cases hws : ws == ""
            · simp [hws]
            · simp only [hws, Bool.false_eq_true, if_false]
              rw [← selectTransitions_legacy_eq_chained f fw doctype]
              cases hsel : selectTransitionsLegacy f fw doctype with
              | nil => simp
              | cons t ts =>
                simp only [List.length_cons]
                rw [if_neg (by simp)]
                rw [fmtTransitionLegacy_eq_chained]

/-- C7: when `action.confirm` intercepts the selected workflow action, a
cancelled dialog - or a failed optional `updateField` write - rejects the
internal promise and the handler throws (so the workflow action does not
proceed), while a confirmed dialog with a successful write (or no write at
all) resolves and raises no error. -/
theorem action_confirm_outcomes (a : String) (uf : Option UpdateField) (w : DbWrite) :
    (actionConfirmHandler a uf (some a) ConfirmChoice.cancelled w
        = Except.error "Workflow action cancelled.")
    ∧ (∀ u : UpdateField, u.field ≠ "" → u.value.isSome = true →
        actionConfirmHandler a (some u) (some a) ConfirmChoice.confirmed DbWrite.failure
          = Except.error "Workflow action cancelled.")
    ∧ (actionConfirmHandler a uf (some a) ConfirmChoice.confirmed DbWrite.success
        = Except.ok ()) := by
  have hself : (some a != some a) = false := by simp
  refine ⟨?_, ?_, ?_⟩
  · simp [actionConfirmHandler, hself]
  · intro u hfield hval
    have hfield2 : (u.field != "") = true := by simpa using hfield
    simp [actionConfirmHandler, hself, hfield2, hval]
  · cases uf with
    | none => simp [actionConfirmHandler, hself]
    | some u =>
      by_cases hg : (u.field != "" && u.value.isSome)
      · simp [actionConfirmHandler, hself, hg]
      · simp [actionConfirmHandler, hself, hg]

/-- Witness for C7 at a concrete interception: a failed field write on a
confirmed dialog throws the cancellation error. -/
theorem action_confirm_outcomes_witness :
    actionConfirmHandler "Submit" (some { field := "revision_count", value := some "2" })
        (some "Submit") ConfirmChoice.confirmed DbWrite.failure
      = Except.error "Workflow action cancelled." :=
  (action_confirm_outcomes "Submit" (some { field := "revision_count", value := some "2" })
      DbWrite.failure).2.1 { field := "revision_count", value := some "2" }
    (by decide) (by decide)

/-- C8 counterexample: `currentStateCheck` given as the empty string is
falsy, so the guard is skipped and `changeWorkflowState` mutates the form
although the given check differs from the current state `"Draft"`. -/
theorem changeWorkflowState_counterexample :
    changeWorkflowState (some { workflow_state := some "Draft" }) "Approved" (some "") true
        = [Mutation.setValue "workflow_state" "Approved",
           Mutation.refreshField "workflow_state", Mutation.save]
    ∧ (some "" : Option String) ≠ some "Draft"
    ∧ (some "" : Option String).isSome = true :=
  ⟨rfl, by decide, rfl⟩

/-- C8 amended: `changeWorkflowState` performs no mutation when the form is
absent, and none when `currentStateCheck` is given as a non-empty string
that differs from the document's current `workflow_state`; in every other
case (check absent, empty, or matching) it performs exactly the
`set_value` of `workflow_state` to `newState`, the `refresh_field`, and the
`save` when `autoSave` is set. -/
theorem changeWorkflowState_amended (newState : String) (cs : Option String)
    (autoSave : Bool) :
    (changeWorkflowState none newState cs autoSave = [])
    ∧ (∀ f : CwsFrm, ∀ s : String, cs = some s → s ≠ "" → f.workflow_state ≠ some s →
        changeWorkflowState (some f) newState cs autoSave = [])
    ∧ (∀ f : CwsFrm, (strTruthy cs = false ∨ f.workflow_state = cs) →
        changeWorkflowState (some f) newState cs autoSave
          = [Mutation.setValue "workflow_state" newState,
             Mutation.refreshField "workflow_state"]
              ++ (if autoSave then [Mutation.save] else [])) := by
  refine ⟨rfl, ?_, ?_⟩
  · intro f s hcs hs hne
    subst hcs
    have htr : strTruthy (some s) = true := by simpa [strTruthy] using hs
    have hneq : (f.workflow_state != some s) = true := by simpa using hne
    simp [changeWorkflowState, htr, hneq]
  · intro f hcase
    rcases hcase with hfalsy | hmatch
    · simp [changeWorkflowState, hfalsy]
    · have : (f.workflow_state != cs) = false := by simpa using hmatch
      simp [changeWorkflowState, this]

/-- Witness for C8 at concrete inputs: a mismatching non-empty check
mutates nothing, while a matching check sets, refreshes and saves. -/
theorem changeWorkflowState_amended_witness :
    changeWorkflowState (some { workflow_state := some "Draft" }) "Approved" (some "Pending") true
        = []
    ∧ changeWorkflowState (some { workflow_state := some "Pending" }) "Approved" (some "Pending") true
        = [Mutation.setValue "workflow_state" "Approved",
           Mutation.refreshField "workflow_state", Mutation.save] := by
  constructor
  · exact (changeWorkflowState_amended "Approved" (some "Pending") true).2.1
      { workflow_state := some "Draft" } "Pending" rfl (by decide) (by decide)
  · have h := (changeWorkflowState_amended "Approved" (some "Pending") true).2.2
      { workflow_state := some "Pending" } (Or.inr rfl)
    simpa using h

lemma mem_getTabsFields_tabs {fields : List DocField} {excludeHidden : Bool}
    {evalDep : String → Option Bool} {name : String} :
    name ∈ (getTabsFields fields excludeHidden evalDep).tabs ↔
      ∃ i g, fields[i]? = some g
        ∧ tabIncluded fields excludeHidden evalDep i g = true
        ∧ g.fieldname = name := by
  unfold getTabsFields
  simp only [List.mem_map, List.mem_filter]
  constructor
  · rintro ⟨⟨i, g⟩, ⟨henum, hinc⟩, hname⟩
    refine ⟨i, g, ?_, hinc, hname⟩
    have := List.mk_mem_enum_iff_getElem?.mp henum
    simpa [List.get?_eq_getElem?] using this
  · rintro ⟨i, g, hif, hinc, hname⟩
    refine ⟨(i, g), ⟨?_, hinc⟩, hname⟩
    apply List.mk_mem_enum_iff_getElem?.mpr
    simpa [List.get?_eq_getElem?] using hif

lemma jsonSet_key_mem {α : Type} {o : List (String × α)} {k : String} {v : α}
    {q : String × α} (hq : q ∈ jsonSet o k v) : q.1 = k ∨ q.1 ∈ o.map Prod.fst := by
  unfold jsonSet at hq
  by_cases hany : o.any (fun p => p.1 == k)
  · rw [if_pos hany] at hq
    obtain ⟨p, hp, hpq⟩ := List.mem_map.mp hq
    by_cases hpk : p.1 == k
    · rw [if_pos hpk] at hpq
      left; rw [← hpq]
    · rw [if_neg hpk] at hpq
      right; rw [← hpq]; exact List.mem_map_of_mem Prod.fst hp
  · rw [if_neg hany] at hq
    rcases List.mem_append.mp hq with hmem | hsingle
    · right; exact List.mem_map_of_mem Prod.fst hmem
    · left
      have : q = (k, v) := by simpa using hsingle
      rw [this]

lemma foldl_jsonSet_keys (l : List (Nat × DocField)) :
    ∀ (init : List (String × DocField)) (q : String × DocField),
      q ∈ l.foldl (fun o p => jsonSet o p.2.fieldname p.2) init →
      q.1 ∈ l.map (fun p => p.2.fieldname) ∨ q.1 ∈ init.map Prod.fst := by
  induction l with
  | nil => intro init q hq; right; exact List.mem_map_of_mem Prod.fst hq
  | cons p rest ih =>
    intro init q hq
    simp only [List.foldl_cons] at hq
    rcases ih (jsonSet init p.2.fieldname p.2) q hq with hin | hinit
    · left; simp only [List.map_cons, List.mem_cons]; right; exact hin
    · obtain ⟨r, hr, hrq⟩ := List.mem_map.mp hinit
      rcases jsonSet_key_mem hr with h1 | h2
      · left; simp only [List.map_cons, List.mem_cons]; left; rw [← hrq]; exact h1
      · right; rw [← hrq]; exact List.mem_map.mpr (List.mem_map.mp h2)

/-- C9: with `excludeHidden`, `getTabs` omits hidden Tab Breaks and empty
tabs - any `"Tab Break"` that is the last metadata field or is immediately
followed by another `"Tab Break"` appears neither in the returned `tabs`
list nor in the `json` map (assuming no other Tab Break reuses its
fieldname). -/
theorem getTabs_excludeHidden_skips (fields : List DocField)
    (evalDep : String → Option Bool) (i : Nat) (f : DocField)
    (hf : fields[i]? = some f)
    (htb : f.fieldtype = "Tab Break")
    (hexc : f.hidden = true ∨ nextIsTabBreakOrEnd fields i = true)
    (huniq : ∀ k < fields.length, k ≠ i → isTabAt fields f.fieldname k = false) :
    f.fieldname ∉ (getTabsResult (some fields) true evalDep).tabs
    ∧ ∀ q ∈ (getTabsResult (some fields) true evalDep).json, q.1 ≠ f.fieldname := by
  have hmain : f.fieldname ∉ (getTabsFields fields true evalDep).tabs := by
    intro hmem
    rw [mem_getTabsFields_tabs] at hmem
    obtain ⟨k, g, hkg, hinc, hname⟩ := hmem
    have hparts := hinc
    unfold tabIncluded at hparts
    simp only [Bool.and_eq_true, Bool.not_eq_true', beq_iff_eq] at hparts
    obtain ⟨⟨⟨hgtb, hhid⟩, hemp⟩, _⟩ := hparts
    by_cases hk : k = i
    · subst hk
      rw [hf] at hkg
      have hgf : f = g := by simpa using hkg
      subst hgf
      simp only [Bool.true_and] at hhid hemp
      rcases hexc with hhidden | hempty
      · rw [hhidden] at hhid; exact absurd hhid (by simp)
      · rw [hempty] at hemp; exact absurd hemp (by simp)
    · have hklen : k < fields.length := by
        by_contra hge
        rw [List.getElem?_eq_none (by omega)] at hkg
        exact absurd hkg (by simp)
      have hnot := huniq k hklen hk
      unfold isTabAt at hnot
      rw [hkg] at hnot
      simp only [Bool.and_eq_false_iff, beq_eq_false_iff_ne] at hnot
      rcases hnot with h1 | h2
      · exact absurd hgtb (by simpa [beq_iff_eq] using h1)
      · exact absurd hname (by simpa [beq_iff_eq] using h2)
  refine ⟨?_, ?_⟩
  · simpa [getTabsResult] using hmain
  · intro q hq hqname
    apply hmain
    rw [← hqname]
    have hq2 : q ∈ (getTabsFields fields true evalDep).json := by
      simpa [getTabsResult] using hq
    unfold getTabsFields at hq2 ⊢
    simp only at hq2 ⊢
    rcases foldl_jsonSet_keys _ [] q hq2 with hin | hinit
    · simpa using hin
    · simp at hinit

/-- Metadata with an empty tab (a Tab Break directly followed by another)
used as concrete input for the C9 witness. -/
def c9ExampleFields : List DocField :=
  [mkTabBreak "t1", mkDataField "a", mkTabBreak "t_empty", mkTabBreak "t2", mkDataField "b"]

/-- Witness for C9: the empty tab `t_empty` (immediately followed by
another Tab Break) is excluded from the filtered tab list. -/
theorem getTabs_excludeHidden_skips_witness :
    "t_empty" ∉ (getTabsResult (some c9ExampleFields) true (fun _ => none)).tabs := by
  have h := (getTabs_excludeHidden_skips c9ExampleFields (fun _ => none) 2
      (mkTabBreak "t_empty") (by decide) (by decide) (by decide) (by decide)).1
  simpa using h

/-- All transitions stored in a transition map, in entry order. -/
def tmapTransitions (tmap : List (String × List Transition)) : List Transition :=
  (tmap.map Prod.snd).flatten

/-- Number of transitions of the map not yet matched by a collected
record: the decreasing measure of the recursive collection. -/
def pendingCount (tmap : List (String × List Transition))
    (acc : List FmtTransition) : Nat :=
  (tmapTransitions tmap).countP (fun t => !seenTransition acc t)

/-- The (action, state) identification pairs of the collected records. -/
def pairsOf (acc : List FmtTransition) : List (String × String) :=
  acc.map (fun f => (f.action, f.state))

/-- A self-loop transition whose `action` property is undefined: the
concrete input of the C10 counterexample. -/
def loopTransition : Transition :=
  { state := some "A", action := none, next_state := some "A",
    allowed := none, condition := none }

/-- A form whose workflow table is the single undefined-action self-loop. -/
def loopFrm : WfFrm :=
  { doc := some { doctype := some "DT", workflow_state := some "A" },
    workflow := some { transitions := some [loopTransition] } }

lemma seenTransition_loop (acc : List FmtTransition) :
    seenTransition acc loopTransition = false := by
  unfold seenTransition jsStrEq loopTransition
  simp

lemma collectGo_loop_none : ∀ fuel (acc : List FmtTransition),
    collectGo (buildTransitionMap [loopTransition]) fuel "A" acc = none := by
  have hmap : assocGet (buildTransitionMap [loopTransition]) "A" = some [loopTransition] := by
    decide
  intro fuel
  induction fuel with
  | zero => intro acc; simp [collectGo]
  | succ f ih =>
    intro acc
    rw [collectGo, hmap]
    show collectList (buildTransitionMap [loopTransition]) f [loopTransition] acc = none
    rw [collectList.eq_def]
    simp only [seenTransition_loop, Bool.false_eq_true, if_false]
    have hkey : keyOfState loopTransition.next_state = "A" := by decide
    rw [hkey, ih]

/-- C10 counterexample: on the one-row cyclic table whose transition has no
`action` property, the collected record stores `action: ""` while the
duplicate check compares it against the raw `undefined`, so the check never
matches and the recursive collection never finishes - for every recursion
bound, `getFutureTransitions` fails to produce a result (in a browser the
unbounded recursion dies as a stack overflow swallowed by the `catch`,
returning `[]`, not the collected table). -/
theorem getFutureTransitions_nonterminating_counterexample :
    ¬ ∃ fuel r, getFutureTransitions (some loopFrm) none none fuel = some r := by
  rintro ⟨fuel, r, h⟩
  have hw : getFutureTransitions (some loopFrm) none none fuel
      = collectGo (buildTransitionMap [loopTransition]) fuel "A" [] := rfl
  rw [hw, collectGo_loop_none] at h
  exact absurd h (by simp)

lemma jsOrEmpty_some (s : String) : jsOrEmpty (some s) = s := by
  unfold jsOrEmpty
  by_cases h : s == "" <;> simp_all [beq_iff_eq]

lemma seenTransition_append {acc ext : List FmtTransition} {t : Transition}
    (h : seenTransition acc t = true) : seenTransition (acc ++ ext) t = true := by
  unfold seenTransition at h ⊢
  rw [List.any_append, h, Bool.true_or]

lemma seenTransition_append_false {acc ext : List FmtTransition} {t : Transition}
    (h : seenTransition (acc ++ ext) t = false) : seenTransition acc t = false := by
  rcases Bool.eq_false_or_eq_true (seenTransition acc t) with ht | hf
  · rw [seenTransition_append ht] at h
    exact absurd h (by simp)
  · exact hf

lemma seenTransition_push {t : Transition} {a s : String}
    (ha : t.action = some a) (hs : t.state = some s) (acc : List FmtTransition) :
    seenTransition (acc ++ [fmtTransitionFuture t]) t = true := by
  unfold seenTransition jsStrEq
  rw [ha, hs, List.any_append]
  have : (fmtTransitionFuture t).action = a ∧ (fmtTransitionFuture t).state = s := by
    unfold fmtTransitionFuture
    rw [ha, hs]
    exact ⟨jsOrEmpty_some a, jsOrEmpty_some s⟩
  simp [this.1, this.2]

lemma countP_lt_of_mem_witness {α : Type} {l : List α} {p q : α → Bool}
    (hpq : ∀ x ∈ l, q x = true → p x = true) {x : α} (hx : x ∈ l)
    (hpx : p x = true) (hqx : q x = false) : l.countP q < l.countP p := by
  obtain ⟨s, t2, rfl⟩ := List.append_of_mem hx
  have h1 : s.countP q ≤ s.countP p :=
    List.countP_mono_left (fun y hy => hpq y (by simp [hy]))
  have h2 : t2.countP q ≤ t2.countP p :=
    List.countP_mono_left (fun y hy => hpq y (by simp [hy]))
  rw [List.countP_append, List.countP_append, List.countP_cons, List.countP_cons]
  simp only [hpx, hqx]
  simp only [if_pos, if_neg, Bool.false_eq_true, if_false, if_true]
  omega

lemma pendingCount_append_le (tmap : List (String × List Transition))
    (acc ext : List FmtTransition) :
    pendingCount tmap (acc ++ ext) ≤ pendingCount tmap acc := by
  unfold pendingCount
  apply List.countP_mono_left
  intro t _ h
  simp only [Bool.not_eq_true'] at h ⊢
  exact seenTransition_append_false h

lemma pendingCount_strict (tmap : List (String × List Transition))
    {acc : List FmtTransition} {t : Transition} {a s : String}
    (hmem : t ∈ tmapTransitions tmap) (ha : t.action = some a) (hs : t.state = some s)
    (hseen : seenTransition acc t = false) :
    pendingCount tmap (acc ++ [fmtTransitionFuture t]) < pendingCount tmap acc := by
  unfold pendingCount
  apply countP_lt_of_mem_witness ?hpq hmem ?hpx ?hqx
  case hpq =>
    intro y _ hy
    simp only [Bool.not_eq_true'] at hy ⊢
    exact seenTransition_append_false hy
  case hpx => simp only [Bool.not_eq_true', hseen]
  case hqx => simp only [seenTransition_push ha hs acc, Bool.not_true]

lemma pendingCount_pos (tmap : List (String × List Transition))
    {acc : List FmtTransition} {t : Transition}
    (hmem : t ∈ tmapTransitions tmap) (hseen : seenTransition acc t = false) :
    0 < pendingCount tmap acc := by
  unfold pendingCount
  rw [List.countP_pos_iff]
  exact ⟨t, hmem, by simp [hseen]⟩

lemma assocGet_entry_sub {tmap : List (String × List Transition)} {key : String}
    {ts : List Transition} (h : assocGet tmap key = some ts) :
    ∀ t ∈ ts, t ∈ tmapTransitions tmap := by
  unfold assocGet at h
  cases hf : tmap.find? (fun p => p.1 == key) with
  | none => rw [hf] at h; exact absurd h (by simp)
  | some p =>
    rw [hf] at h
    have hts : p.2 = ts := by simpa using h
    have hp : p ∈ tmap := List.mem_of_find?_eq_some hf
    intro t ht
    unfold tmapTransitions
    rw [List.mem_flatten]
    exact ⟨p.2, List.mem_map_of_mem Prod.snd hp, hts ▸ ht⟩

lemma buildStep_mem {m : List (String × List Transition)} {t0 t : Transition}
    (h : t ∈ tmapTransitions (
      if m.any (fun p => p.1 == keyOfState t0.state) then
        m.map (fun p => if p.1 == keyOfState t0.state then (p.1, p.2 ++ [t0]) else p)
      else m ++ [(keyOfState t0.state, [t0])])) :
    t ∈ tmapTransitions m ∨ t = t0 := by
  by_cases hany : m.any (fun p => p.1 == keyOfState t0.state)
  · rw [if_pos hany] at h
    unfold tmapTransitions at h ⊢
    rw [List.map_map, List.mem_flatten] at h
    obtain ⟨l, hl, htl⟩ := h
    obtain ⟨p, hp, hpl⟩ := List.mem_map.mp hl
    simp only [Function.comp] at hpl
    by_cases hpk : p.1 == keyOfState t0.state
    · rw [if_pos hpk] at hpl
      simp only at hpl
      rw [← hpl] at htl
      rcases List.mem_append.mp htl with hin | hone
      · left
        rw [List.mem_flatten]
        exact ⟨p.2, List.mem_map_of_mem Prod.snd hp, hin⟩
      · right; simpa using hone
    · rw [if_neg hpk] at hpl
      rw [← hpl] at htl
      left
      rw [List.mem_flatten]
      exact ⟨p.2, List.mem_map_of_mem Prod.snd hp, htl⟩
  · rw [if_neg hany] at h
    unfold tmapTransitions at h ⊢
    rw [List.map_append, List.flatten_append] at h
    rcases List.mem_append.mp h with hin | hone
    · left; exact hin
    · right; simpa using hone

lemma build_foldl_mem (ts : List Transition) :
    ∀ (m : List (String × List Transition)) (t : Transition),
      t ∈ tmapTransitions (ts.foldl
        (fun m t =>
          let k := keyOfState t.state
          if m.any (fun p => p.1 == k) then
            m.map (fun p => if p.1 == k then (p.1, p.2 ++ [t]) else p)
          else m ++ [(k, [t])]) m) →
      t ∈ tmapTransitions m ∨ t ∈ ts := by
  induction ts with
  | nil => intro m t h; left; exact h
  | cons t0 rest ih =>
    intro m t h
    simp only [List.foldl_cons] at h
    rcases ih _ t h with hm | hrest
    · rcases buildStep_mem hm with hmm | heq
      · left; exact hmm
      · right; rw [heq]; exact List.mem_cons_self t0 rest
    · right; exact List.mem_cons_of_mem t0 hrest

lemma mem_of_mem_buildTransitionMap {ts : List Transition} {t : Transition}
    (h : t ∈ tmapTransitions (buildTransitionMap ts)) : t ∈ ts := by
  unfold buildTransitionMap at h
  rcases build_foldl_mem ts [] t h with hnil | hmem
  · exact absurd hnil (by simp [tmapTransitions])
  · exact hmem

lemma collect_extends (tmap : List (String × List Transition)) : ∀ fuel : Nat,
    (∀ state acc r, collectGo tmap fuel state acc = some r → ∃ ext, r = acc ++ ext) ∧
    (∀ ts acc r, collectList tmap fuel ts acc = some r → ∃ ext, r = acc ++ ext) := by
  intro fuel
  induction fuel with
  | zero =>
    constructor
    · intro state acc r h
      simp [collectGo] at h
    · intro ts
      induction ts with
      | nil =>
        intro acc r h
        simp [collectList] at h
        exact ⟨[], by simp [← h]⟩
      | cons t rest ih =>
        intro acc r h
        rw [collectList.eq_def] at h
        simp only at h
        by_cases hs : seenTransition acc t
        · rw [if_pos hs] at h
          exact ih _ _ h
        · rw [if_neg hs] at h
          have h0 : collectGo tmap 0 (keyOfState t.next_state)
              (acc ++ [fmtTransitionFuture t]) = none := by simp [collectGo]
          rw [h0] at h
          simp at h
  | succ f ihf =>
    have hgo : ∀ state acc r,
        collectGo tmap (f + 1) state acc = some r → ∃ ext, r = acc ++ ext := by
      intro state acc r h
      rw [collectGo] at h
      cases ha : assocGet tmap state with
      | none =>
        rw [ha] at h
        simp at h
        exact ⟨[], by simp [← h]⟩
      | some ts =>
        rw [ha] at h
        simp only at h
        exact ihf.2 ts acc r h
    refine ⟨hgo, ?_⟩
    intro ts
    induction ts with
    | nil =>
      intro acc r h
      simp [collectList] at h
      exact ⟨[], by simp [← h]⟩
    | cons t rest ih =>
      intro acc r h
      rw [collectList.eq_def] at h
      simp only at h
      by_cases hs : seenTransition acc t
      · rw [if_pos hs] at h
        exact ih _ _ h
      · rw [if_neg hs] at h
        cases hg : collectGo tmap (f + 1) (keyOfState t.next_state)
            (acc ++ [fmtTransitionFuture t]) with
        | none => rw [hg] at h; simp at h
        | some acc2 =>
          rw [hg] at h
          simp only at h
          obtain ⟨e1, he1⟩ := hgo _ _ _ hg
          obtain ⟨e2, he2⟩ := ih _ _ h
          refine ⟨[fmtTransitionFuture t] ++ e1 ++ e2, ?_⟩
          rw [he2, he1]
          simp

lemma collect_succeeds (tmap : List (String × List Transition))
    (hdefT : ∀ t ∈ tmapTransitions tmap, t.action.isSome = true ∧ t.state.isSome = true) :
    ∀ fuel : Nat,
    (∀ state acc, pendingCount tmap acc < fuel →
      (collectGo tmap fuel state acc).isSome = true) ∧
    (∀ ts acc, (∀ t ∈ ts, t ∈ tmapTransitions tmap) → pendingCount tmap acc ≤ fuel →
      (collectList tmap fuel ts acc).isSome = true) := by
  intro fuel
  induction fuel with
  | zero =>
    constructor
    · intro state acc h
      exact absurd h (by omega)
    · intro ts
      induction ts with
      | nil => intro acc _ _; simp [collectList]
      | cons t rest ih =>
        intro acc hsub hle
        rw [collectList.eq_def]
        simp only
        by_cases hs : seenTransition acc t
        · rw [if_pos hs]
          exact ih acc (fun g hg => hsub g (List.mem_cons_of_mem t hg)) hle
        · exfalso
          have := pendingCount_pos tmap (hsub t (List.mem_cons_self t rest))
            (by simpa using hs)
          omega
  | succ f ihf =>
    have hgo : ∀ state acc, pendingCount tmap acc < f + 1 →
        (collectGo tmap (f + 1) state acc).isSome = true := by
      intro state acc hlt
      rw [collectGo]
      cases ha : assocGet tmap state with
      | none => simp
      | some ts =>
        simp only
        exact ihf.2 ts acc (assocGet_entry_sub ha) (by omega)
    refine ⟨hgo, ?_⟩
    intro ts
    induction ts with
    | nil => intro acc _ _; simp [collectList]
    | cons t rest ih =>
      intro acc hsub hle
      rw [collectList.eq_def]
      simp only
      by_cases hs : seenTransition acc t
      · rw [if_pos hs]
        exact ih acc (fun g hg => hsub g (List.mem_cons_of_mem t hg)) hle
      · rw [if_neg hs]
        have htmem : t ∈ tmapTransitions tmap := hsub t (List.mem_cons_self t rest)
        obtain ⟨ha2, hs2⟩ := hdefT t htmem
        obtain ⟨a, haa⟩ := Option.isSome_iff_exists.mp ha2
        obtain ⟨s, hss⟩ := Option.isSome_iff_exists.mp hs2
        have hstrict := pendingCount_strict tmap htmem haa hss (by simpa using hs)
        have hg := hgo (keyOfState t.next_state) (acc ++ [fmtTransitionFuture t]) (by omega)
        obtain ⟨acc2, hacc2⟩ := Option.isSome_iff_exists.mp hg
        rw [hacc2]
        simp only
        obtain ⟨e1, he1⟩ := (collect_extends tmap (f + 1)).1 _ _ _ hacc2
        have hpc : pendingCount tmap acc2 ≤ pendingCount tmap (acc ++ [fmtTransitionFuture t]) := by
          rw [he1]
          exact pendingCount_append_le tmap _ e1
        exact ih acc2 (fun g hg2 => hsub g (List.mem_cons_of_mem t hg2)) (by omega)

lemma fmtTransitionFuture_pair {t : Transition} {a s : String}
    (ha : t.action = some a) (hs : t.state = some s) :
    (fmtTransitionFuture t).action = a ∧ (fmtTransitionFuture t).state = s := by
  unfold fmtTransitionFuture
  rw [ha, hs]
  exact ⟨jsOrEmpty_some a, jsOrEmpty_some s⟩

lemma seenTransition_iff_pair_mem {acc : List FmtTransition} {t : Transition}
    {a s : String} (ha : t.action = some a) (hs : t.state = some s) :
    seenTransition acc t = true ↔ (a, s) ∈ pairsOf acc := by
  unfold seenTransition jsStrEq pairsOf
  rw [ha, hs]
  simp only [List.any_eq_true, Bool.and_eq_true, beq_iff_eq, List.mem_map, Prod.mk.injEq]

lemma collect_nodup (tmap : List (String × List Transition))
    (hdefT : ∀ t ∈ tmapTransitions tmap, t.action.isSome = true ∧ t.state.isSome = true) :
    ∀ fuel : Nat,
    (∀ state acc r, (pairsOf acc).Nodup → collectGo tmap fuel state acc = some r →
      (pairsOf r).Nodup) ∧
    (∀ ts acc r, (∀ t ∈ ts, t ∈ tmapTransitions tmap) → (pairsOf acc).Nodup →
      collectList tmap fuel ts acc = some r → (pairsOf r).Nodup) := by
  intro fuel
  induction fuel with
  | zero =>
    constructor
    · intro state acc r _ h
      simp [collectGo] at h
    · intro ts
      induction ts with
      | nil =>
        intro acc r _ hnd h
        simp [collectList] at h
        rw [← h]
        exact hnd
      | cons t rest ih =>
        intro acc r hsub hnd h
        rw [collectList.eq_def] at h
        simp only at h
        by_cases hs : seenTransition acc t
        · rw [if_pos hs] at h
          exact ih acc r (fun g hg => hsub g (List.mem_cons_of_mem t hg)) hnd h
        · rw [if_neg hs] at h
          have h0 : collectGo tmap 0 (keyOfState t.next_state)
              (acc ++ [fmtTransitionFuture t]) = none := by simp [collectGo]
          rw [h0] at h
          simp at h
  | succ f ihf =>
    have hgo : ∀ state acc r, (pairsOf acc).Nodup →
        collectGo tmap (f + 1) state acc = some r → (pairsOf r).Nodup := by
      intro state acc r hnd h
      rw [collectGo] at h
      cases ha : assocGet tmap state with
      | none =>
        rw [ha] at h
        simp at h
        rw [← h]
        exact hnd
      | some ts =>
        rw [ha] at h
        simp only at h
        exact ihf.2 ts acc r (assocGet_entry_sub ha) hnd h
    refine ⟨hgo, ?_⟩
    intro ts
    induction ts with
    | nil =>
      intro acc r _ hnd h
      simp [collectList] at h
      rw [← h]
      exact hnd
    | cons t rest ih =>
      intro acc r hsub hnd h
      rw [collectList.eq_def] at h
      simp only at h
      by_cases hs : seenTransition acc t
      · rw [if_pos hs] at h
        exact ih acc r (fun g hg => hsub g (List.mem_cons_of_mem t hg)) hnd h
      · rw [if_neg hs] at h
        cases hg : collectGo tmap (f + 1) (keyOfState t.next_state)
            (acc ++ [fmtTransitionFuture t]) with
        | none => rw [hg] at h; simp at h
        | some acc2 =>
          rw [hg] at h
          simp only at h
          have htmem : t ∈ tmapTransitions tmap := hsub t (List.mem_cons_self t rest)
          obtain ⟨ha2, hs2⟩ := hdefT t htmem
          obtain ⟨a, haa⟩ := Option.isSome_iff_exists.mp ha2
          obtain ⟨s, hss⟩ := Option.isSome_iff_exists.mp hs2
          have hnotmem : (a, s) ∉ pairsOf acc := by
            intro hmem
            rw [← seenTransition_iff_pair_mem haa hss] at hmem
            rw [hmem] at hs
            exact hs rfl
          have hnd2 : (pairsOf (acc ++ [fmtTransitionFuture t])).Nodup := by
            unfold pairsOf
            rw [List.map_append]
            obtain ⟨hfa, hfs⟩ := fmtTransitionFuture_pair haa hss
            simp only [List.map_cons, List.map_nil, hfa, hfs]
            rw [List.nodup_append]
            refine ⟨hnd, List.nodup_singleton _, ?_⟩
            intro x hx hxs
            have : x = (a, s) := by simpa using hxs
            rw [this] at hx
            exact hnotmem hx
          have hacc2nd : (pairsOf acc2).Nodup := hgo _ _ _ hnd2 hg
          exact ih acc2 r (fun g hg2 => hsub g (List.mem_cons_of_mem t hg2)) hacc2nd h

/-- C10 amended: `workflow.getFutureTransitions` terminates on every
workflow transition table whose transitions all carry defined `action` and
`state` properties (as Frappe transition rows do): the duplicate check then
matches the recorded (action, state) pair exactly, the recursion is
bounded by the number of not-yet-recorded transitions, and each reachable
transition appears at most once in the result. -/
theorem getFutureTransitions_terminates_amended (frm : Option WfFrm)
    (fw : FrappeWorkflows) (sp : Option String)
    (hdef : ∀ f : WfFrm, frm = some f → ∀ dt : String,
      ∀ t ∈ selectTransitionsLegacy f fw dt,
        t.action.isSome = true ∧ t.state.isSome = true) :
    ∃ fuel r, getFutureTransitions frm fw sp fuel = some r ∧ (pairsOf r).Nodup := by
  cases frm with
  | none => exact ⟨1, [], rfl, by simp [pairsOf]⟩
  | some f =>
    cases hdoc : f.doc with
    | none =>
      refine ⟨1, [], ?_, by simp [pairsOf]⟩
      simp [getFutureTransitions, hdoc]
    | some doc =>
      cases hdt : doc.doctype with
      | none =>
        refine ⟨1, [], ?_, by simp [pairsOf]⟩
        simp [getFutureTransitions, hdoc, hdt]
      | some doctype =>
        by_cases hdte : doctype == ""
        · refine ⟨1, [], ?_, by simp [pairsOf]⟩
          simp [getFutureTransitions, hdoc, hdt, hdte]
        · have hred : ∀ fuel, getFutureTransitions (some f) fw sp fuel =
              (match (match sp with
                      | some s => if s == "" then doc.workflow_state else some s
                      | none => doc.workflow_state) with
               | none => some []
               | some currentState =>
                 if currentState == "" then some []
                 else if (selectTransitionsLegacy f fw doctype).length == 0 then some []
                 else collectGo (buildTransitionMap (selectTransitionsLegacy f fw doctype))
                   fuel currentState []) := by
            intro fuel
            simp [getFutureTransitions, hdoc, hdt, hdte]
          cases hcs : (match sp with
                      | some s => if s == "" then doc.workflow_state else some s
                      | none => doc.workflow_state) with
          | none =>
            refine ⟨1, [], ?_, by simp [pairsOf]⟩
            rw [hred 1, hcs]
          | some cs =>
            by_cases hcse : cs == ""
            · refine ⟨1, [], ?_, by simp [pairsOf]⟩
              rw [hred 1, hcs]
              simp only
              rw [if_pos hcse]
            · by_cases hlen : (selectTransitionsLegacy f fw doctype).length == 0
              · refine ⟨1, [], ?_, by simp [pairsOf]⟩
                rw [hred 1, hcs]
                simp only
                rw [if_neg hcse, if_pos hlen]
              · have hdefT : ∀ t ∈ tmapTransitions
                    (buildTransitionMap (selectTransitionsLegacy f fw doctype)),
                    t.action.isSome = true ∧ t.state.isSome = true :=
                  fun t ht => hdef f rfl doctype t (mem_of_mem_buildTransitionMap ht)
                have hfs := (collect_succeeds _ hdefT
                    (pendingCount (buildTransitionMap (selectTransitionsLegacy f fw doctype)) []
                      + 1)).1 cs [] (by omega)
                obtain ⟨r, hr⟩ := Option.isSome_iff_exists.mp hfs
                have hnd := (collect_nodup _ hdefT _).1 cs [] r (by simp [pairsOf]) hr
                refine ⟨pendingCount
                    (buildTransitionMap (selectTransitionsLegacy f fw doctype)) [] + 1,
                  r, ?_, hnd⟩
                rw [hred _, hcs]
                simp only
                rw [if_neg hcse, if_neg hlen]
                exact hr

/-- The transition rows of a two-state cyclic workflow, all with defined
`action` and `state` properties: concrete input for the C10 witness. -/
def cyclicTransitions : List Transition :=
  [{ state := some "A", action := some "go", next_state := some "B",
     allowed := none, condition := none },
   { state := some "B", action := some "back", next_state := some "A",
     allowed := none, condition := none }]

/-- A form carrying the cyclic two-state workflow table. -/
def cyclicFrm : WfFrm :=
  { doc := some { doctype := some "DT", workflow_state := some "A" },
    workflow := some { transitions := some cyclicTransitions } }

/-- Witness for C10 on a concrete cyclic two-state table with defined
fields: the collection terminates and lists each transition once. -/
theorem getFutureTransitions_terminates_amended_witness :
    ∃ fuel r, getFutureTransitions (some cyclicFrm) none none fuel = some r
      ∧ (pairsOf r).Nodup :=
  getFutureTransitions_terminates_amended (some cyclicFrm) none none
    (by
      intro f hf dt
      cases hf
      have hsel : selectTransitionsLegacy cyclicFrm none dt = cyclicTransitions := rfl
      rw [hsel]
      decide)
